import Mathlib

/-!
Shallow embedding of `PalindromeChecker(5).py`.

A Unicode code point is modelled by the structure `PyChar`, which records
exactly the character attributes the source consults: `str.isalpha`,
`str.isspace`, `unicodedata.category(c) == 'Mn'`, `str.isupper`, the code
point of the lowercase form (the source applies NFC after lowering in
`hash_char`; for every character modelled here the two coincide, so a single
`lowerCode` field stands for `ord(unicodedata.normalize('NFC', c.lower())[0])`),
whether that lowered form is alphabetic, the code point of the uppercase form,
and a stand-in for Python's `hash` of the normalised string (`hashNormalized`),
which the source only ever compares for equality.

Python strings are lists of `PyChar`; arguments that may be `None` or
non-strings are a `PyVal`.  Exceptions are modelled with `Except`:
`UnallowedCharacterError` carries the offending character, and the paragraph
scanner's `InvalidInputError` is a `PyError`.

Two deliberate elisions, both observationally inert:
* the per-engine hash memo cache (`hash_cache`): `hash_char` is a pure
  function of its character, the cache is consulted first and populated with
  that same pure value, so cached and uncached lookups always agree;
* the engine's stored `left`/`right`/`center` fields: they are overwritten
  from scratch on every `process_char` call before being read, and are never
  read on any other path.
The write-only local `valid_char_count` of `process_char` is also dropped.
-/

structure PyChar where
  code : Nat
  isAlpha : Bool
  isSpace : Bool
  isMn : Bool
  isUpper : Bool
  lowerCode : Nat
  upperCode : Nat
  lowerIsAlpha : Bool
  hashNormalized : Nat
deriving DecidableEq

def defaultChar : PyChar :=
  { code := 0, isAlpha := false, isSpace := false, isMn := false, isUpper := false,
    lowerCode := 0, upperCode := 0, lowerIsAlpha := false, hashNormalized := 0 }

/-- Python values that may be passed where the source expects a string:
`None`, an actual string, or any other (non-string) object. -/
inductive PyVal where
  | pynull
  | pystr (s : List PyChar)
  | nonstr
deriving DecidableEq

/-- The three reading strategies accepted by `StreamProcessor`
(`"ltr"`, `"rtl"`, `"center-out"`). -/
inductive Direction where
  | ltr
  | rtl
  | centerOut
deriving DecidableEq

/-- Error payload of `UnallowedCharacterError` (the offending character) or
`InvalidInputError` (its message). -/
inductive PyError where
  | unallowedCharacter (c : PyChar)
  | invalidInput (msg : String)
deriving DecidableEq

/-- The engine's stored `error_msg` strings:
`"Input Error: Invalid character"` and
`"Character Error: Unallowed character <c>"`. -/
inductive ErrorMsg where
  | inputError
  | characterError (c : PyChar)
deriving DecidableEq

/-- The tuples stored by the recording cursor:
`(char, was_capitalized, is_emoji, is_allowed)`. -/
abbrev CharTuple := PyChar × Bool × Bool × Bool

/-- The triple returned by `process_char`. -/
abbrev Output := Bool × Option ErrorMsg × List CharTuple

/-- A non-letter, non-space, non-mark symbol with code point `c`: lowering and
uppering leave it unchanged, and Python's `hash` of its string is stood in for
by the code point itself (distinct characters hash distinctly). -/
def mkSymbol (c : Nat) : PyChar :=
  { code := c, isAlpha := false, isSpace := false, isMn := false, isUpper := false,
    lowerCode := c, upperCode := c, lowerIsAlpha := false, hashNormalized := c }

/-- The allowed emojis' code points, including the five skin tone modifiers.
The tone variants in `ALLOWED_EMOJIS` are two-code-point strings (base glyph
followed by a modifier). -/
def eSmile : PyChar := mkSymbol 128522
def eThumb : PyChar := mkSymbol 128077
def eRocket : PyChar := mkSymbol 128640
def eHands : PyChar := mkSymbol 128588
def eWave : PyChar := mkSymbol 128075
def eStar : PyChar := mkSymbol 127775
def ePaw : PyChar := mkSymbol 128062
def tone1 : PyChar := mkSymbol 127995
def tone2 : PyChar := mkSymbol 127996
def tone3 : PyChar := mkSymbol 127997
def tone4 : PyChar := mkSymbol 127998
def tone5 : PyChar := mkSymbol 127999

def ALLOWED_EMOJIS : List (List PyChar) :=
  [[eSmile], [eSmile, tone1], [eSmile, tone2], [eSmile, tone3], [eSmile, tone4], [eSmile, tone5],
   [eThumb], [eThumb, tone1], [eThumb, tone2], [eThumb, tone3], [eThumb, tone4], [eThumb, tone5],
   [eRocket],
   [eHands], [eHands, tone1], [eHands, tone2], [eHands, tone3], [eHands, tone4], [eHands, tone5],
   [eWave], [eWave, tone1], [eWave, tone2], [eWave, tone3], [eWave, tone4], [eWave, tone5],
   [eStar],
   [ePaw]]

/-- `is_null`: check if the value is `None`. -/
def is_null (v : PyVal) : Bool :=
  match v with
  | .pynull => true
  | _ => false

/-- `str.isspace()`: true iff the string is non-empty and all whitespace. -/
def pyIsspace (s : List PyChar) : Bool :=
  !s.isEmpty && s.all (fun c => c.isSpace)

/-- `is_empty`: check if a string is empty or contains only spaces. -/
def is_empty (s : List PyChar) : Bool :=
  decide (s.length = 0) || pyIsspace s

/-- `is_emoticon`: check if a single char is an allowed emoji,
return `(char, is_allowed)`.  Membership is string membership in
`ALLOWED_EMOJIS`, so a one-code-point char only matches one-code-point
entries. -/
def is_emoticon (char : PyChar) : PyChar × Bool :=
  if char.isAlpha = true ∨ char.isSpace = true then (char, false)
  else (char, decide ([char] ∈ ALLOWED_EMOJIS))

/-- `clean`: check if char is a letter or allowed emoji, reject spaces and
diacritics.  Raises `UnallowedCharacterError` (modelled as the offending
character) for other symbols when no restricted alphabet is given. -/
def clean (char : PyChar) (valid_chars : Option (List PyChar)) : Except PyChar Bool :=
  if char.isSpace = true ∨ char.isMn = true then .ok false
  else
    match valid_chars with
    | some vs => .ok (decide (char ∈ vs))
    | none =>
      if char.isAlpha = true then .ok true
      else if (is_emoticon char).2 = true then .ok true
      else .error char

/-- `has_valid_chars`: check if `s` has at least one valid character
(`any(...)` short-circuits, so a later raising character is not reached). -/
def has_valid_chars (s : List PyChar) (valid_chars : Option (List PyChar)) : Except PyChar Bool :=
  match s with
  | [] => .ok false
  | c :: rest =>
    match clean c valid_chars with
    | .error e => .error e
    | .ok true => .ok true
    | .ok false => has_valid_chars rest valid_chars

/-- `hash_char`: `ord` of the lowered, normalised form when it is alphabetic,
else Python's `hash` of the normalised string (see module comment on the
elided memo cache). -/
def hash_char (c : PyChar) : Nat :=
  if c.lowerIsAlpha = true then c.lowerCode else c.hashNormalized

/-- `Left`: manages the left pointer for stream processing (the recording
cursor variant). -/
structure Left where
  buffer : List PyChar
  pos : Int
  direction : Direction
  valid_chars : Option (List PyChar)
  valid : Bool
  chars : List CharTuple
deriving DecidableEq

/-- `Right`: manages the right pointer for stream processing (no recording). -/
structure Right where
  buffer : List PyChar
  pos : Int
  direction : Direction
  valid_chars : Option (List PyChar)
  valid : Bool
deriving DecidableEq

/-- `Left.get_hash`: hash of the current character, recording its tuple, or
`None` marking the cursor invalid. -/
def Left.get_hash (l : Left) : Except PyChar (Option Nat × Left) :=
  if l.valid = false ∨ l.pos < 0 ∨ l.pos ≥ (l.buffer.length : Int) then
    .ok (Option.none, { l with valid := false })
  else
    let char := l.buffer.getD l.pos.toNat defaultChar
    match clean char l.valid_chars with
    | .error e => .error e
    | .ok false => .ok (Option.none, { l with valid := false })
    | .ok true =>
      if char.isAlpha = true then
        .ok (some (hash_char char),
             { l with chars := l.chars ++ [(char, char.isUpper, false, true)] })
      else
        let is_allowed := (is_emoticon char).2
        if is_allowed = false then .ok (Option.none, { l with valid := false })
        else
          .ok (some (hash_char char),
               { l with chars := l.chars ++ [(char, false, is_allowed, is_allowed)] })

/-- `Left.advance`: move by the topology-derived step; latch invalid when the
new position leaves the buffer. -/
def Left.advance (l : Left) : Left :=
  let pos := l.pos + (if l.direction = Direction.ltr ∨ l.direction = Direction.centerOut then 1 else -1)
  if pos < 0 ∨ pos ≥ (l.buffer.length : Int) then { l with pos := pos, valid := false }
  else { l with pos := pos }

/-- `Right.get_hash`: like `Left.get_hash` but stores nothing. -/
def Right.get_hash (r : Right) : Except PyChar (Option Nat × Right) :=
  if r.valid = false ∨ r.pos < 0 ∨ r.pos ≥ (r.buffer.length : Int) then
    .ok (Option.none, { r with valid := false })
  else
    let char := r.buffer.getD r.pos.toNat defaultChar
    match clean char r.valid_chars with
    | .error e => .error e
    | .ok false => .ok (Option.none, { r with valid := false })
    | .ok true =>
      if char.isAlpha = false ∧ (is_emoticon char).2 = false then
        .ok (Option.none, { r with valid := false })
      else .ok (some (hash_char char), r)

/-- `Right.advance`: the source reads
`self.pos -= 1 if self.direction in ["ltr", "center-out"] else 1`,
whose conditional expression yields `1` in both branches, so the right
cursor moves toward the front regardless of topology.  The branch is kept
verbatim. -/
def Right.advance (r : Right) : Right :=
  let pos := r.pos - (if r.direction = Direction.ltr ∨ r.direction = Direction.centerOut then 1 else 1)
  if pos < 0 ∨ pos ≥ (r.buffer.length : Int) then { r with pos := pos, valid := false }
  else { r with pos := pos }

/-- The `while` guard of `process_char`'s validation loop. -/
def loopCond (d : Direction) (lpos rpos : Int) : Prop :=
  ((d = Direction.ltr ∨ d = Direction.centerOut) ∧ lpos < rpos) ∨
  (d = Direction.rtl ∧ lpos > rpos)

instance (d : Direction) (lpos rpos : Int) : Decidable (loopCond d lpos rpos) := by
  unfold loopCond; infer_instance

/-- Result of one run of the validation loop: an uncaught
`UnallowedCharacterError`, the early `return` on a hash mismatch or missing
hash, or normal loop exit. -/
inductive LoopResult where
  | raised (e : PyChar)
  | mismatch (l : Left) (r : Right)
  | completed (l : Left) (r : Right)
deriving DecidableEq

/-- The validation `while` loop of `process_char` (lines 219-229).  The loop
terminates because the cursors move monotonically and latch invalid when they
leave the buffer; `fuel` is a structural bound on the number of guard checks,
and every caller passes `buffer.length + 1`, which exceeds the possible
iteration count for every topology. -/
def palLoop : Nat → Direction → Left → Right → LoopResult
  | 0, _, l, r => .completed l r
  | Nat.succ fuel, d, l, r =>
    if l.valid = true ∧ r.valid = true ∧ loopCond d l.pos r.pos then
      match l.get_hash with
      | .error e => .raised e
      | .ok (left_hash, l1) =>
        match r.get_hash with
        | .error e => .raised e
        | .ok (right_hash, r1) =>
          if left_hash = Option.none ∨ right_hash = Option.none ∨ left_hash ≠ right_hash then
            .mismatch l1 r1
          else palLoop fuel d l1.advance r1.advance
    else .completed l r

/-- `StreamProcessor`: processes a palindrome stream with ltr, rtl, or
center-out reading (see module comment for the elided fields). -/
structure StreamProcessor where
  buffer : List PyChar
  direction : Direction
  valid_chars : Option (List PyChar)
  valid : Bool
  error_msg : Option ErrorMsg
  stopped : Bool
  skipped_diacritics : Nat
  skipped_spaces : Nat
deriving DecidableEq

/-- The state built by `StreamProcessor.__init__`. -/
def StreamProcessor.init (direction : Direction) (valid_chars : Option (List PyChar)) :
    StreamProcessor :=
  { buffer := [], direction := direction, valid_chars := valid_chars, valid := true,
    error_msg := Option.none, stopped := false, skipped_diacritics := 0, skipped_spaces := 0 }

/-- `StreamProcessor.reset`: reset the processor to its initial state. -/
def StreamProcessor.reset (sp : StreamProcessor) : StreamProcessor :=
  { sp with
      buffer := [], valid := true, error_msg := Option.none, stopped := false,
      skipped_diacritics := 0, skipped_spaces := 0 }

/-- `StreamProcessor.process_char`: process a single character in the stream,
returning `(is_palindrome, error_msg, recorded_chars)` and the new state. -/
def StreamProcessor.process_char (sp0 : StreamProcessor) (char : PyVal) (auto_reset : Bool) :
    Output × StreamProcessor :=
  let sp := if sp0.stopped = true ∧ auto_reset = true then sp0.reset else sp0
  if sp.stopped = true then ((false, sp.error_msg, []), sp)
  else
    match char with
    | .pystr [c] =>
      if c.isSpace = true then
        ((false, Option.none, []), { sp with skipped_spaces := sp.skipped_spaces + 1 })
      else if c.isMn = true then
        ((false, Option.none, []), { sp with skipped_diacritics := sp.skipped_diacritics + 1 })
      else
        match clean c sp.valid_chars with
        | .error e =>
          let msg := some (ErrorMsg.characterError e)
          ((false, msg, []), { sp with valid := false, error_msg := msg, stopped := true })
        | .ok false => ((false, Option.none, []), sp)
        | .ok true =>
          let buffer := sp.buffer ++ [c]
          let n := buffer.length
          let posPair : Int × Int :=
            match sp.direction with
            | .centerOut =>
              let center := n / 2
              (((center : Nat) : Int) - ((n / 2 : Nat) : Int),
               ((center : Nat) : Int) + ((n / 2 : Nat) : Int))
            | .ltr => (0, (n : Int) - 1)
            | .rtl => ((n : Int) - 1, 0)
          let l : Left :=
            { buffer := buffer, pos := posPair.1, direction := sp.direction,
              valid_chars := sp.valid_chars, valid := true, chars := [] }
          let r : Right :=
            { buffer := buffer, pos := posPair.2, direction := sp.direction,
              valid_chars := sp.valid_chars, valid := true }
          match palLoop (n + 1) sp.direction l r with
          | .raised e =>
            let msg := some (ErrorMsg.characterError e)
            ((false, msg, []),
             { sp with buffer := buffer, valid := false, error_msg := msg, stopped := true })
          | .mismatch _ _ =>
            ((false, sp.error_msg, []), { sp with buffer := buffer, valid := false })
          | .completed l1 r1 =>
            let v := l1.valid && r1.valid
            let chars := if v = true then l1.chars else []
            ((v, Option.none, chars),
             { sp with buffer := buffer, valid := v, error_msg := Option.none })
    | _ =>
      let msg := some ErrorMsg.inputError
      ((false, msg, []), { sp with valid := false, error_msg := msg, stopped := true })

/-- Possible shapes of the renderer's display token: the mirrored
reconstruction (as a list of code points, after re-casing), the original
word passed through, or the literal `"INVALID"` marker. -/
inductive DisplayWord where
  | rendered (codes : List Nat)
  | original (w : List PyChar)
  | invalidMarker
deriving DecidableEq

/-- `len([c for c in word if clean(c)])` from `String_Output`'s status line:
evaluated left to right, raising at the first unallowed character. -/
def countCleanTrue : List PyChar → Except PyChar Nat
  | [] => .ok 0
  | c :: rest =>
    match clean c Option.none with
    | .error e => .error e
    | .ok b =>
      match countCleanTrue rest with
      | .error e => .error e
      | .ok n => .ok (if b = true then n + 1 else n)

/-- `String_Output`: the display-token construction of the renderer
(lines 244-264), plus the status line's valid-character count, which is the
only later part that can raise; the remaining formatting is pure text and is
not modelled. -/
def String_Output (word : PyVal) (result : Bool) (error_msg : Option ErrorMsg)
    (direction : Direction) (chars : List CharTuple) (streaming : Bool)
    (skipped_diacritics skipped_spaces : Nat) : Except PyChar DisplayWord :=
  let _ := streaming
  let _ := skipped_diacritics
  let _ := skipped_spaces
  let validInput : Except PyChar Bool :=
    match word with
    | .pystr s => if is_empty s = true then .ok false else has_valid_chars s Option.none
    | _ => .ok false
  match validInput with
  | .error e => .error e
  | .ok is_valid_input =>
    let display : DisplayWord :=
      if is_valid_input = true ∧ chars ≠ [] ∧ result = true then
        let half_stack := chars
        let mirrored :=
          if half_stack.length = 1 then half_stack
          else
            let expected_length := 2 * half_stack.length - 1
            (half_stack ++ half_stack.reverse).take expected_length
        let display_chars := mirrored.map (fun t =>
          if t.2.2.1 = true then t.1.code
          else if t.2.1 = true ∧ t.1.isAlpha = true then t.1.upperCode
          else if t.1.isAlpha = true then t.1.lowerCode
          else t.1.code)
        DisplayWord.rendered
          (if direction = Direction.ltr ∨ direction = Direction.centerOut then display_chars
           else display_chars.reverse)
      else if is_valid_input = true ∧ result = false then
        match word with
        | .pystr s => DisplayWord.original s
        | _ => DisplayWord.invalidMarker
      else DisplayWord.invalidMarker
    match error_msg with
    | some _ => .ok display
    | none =>
      let count : Except PyChar Nat :=
        if is_valid_input = true then
          match word with
          | .pystr s => countCleanTrue s
          | _ => .ok 0
        else .ok 0
      match count with
      | .error e => .error e
      | .ok _ => .ok display

/-- A found palindrome entry of `find_palindromes_in_paragraph`. -/
structure PalRes where
  palindrome : List PyChar
  start_pos : Nat
  end_pos : Nat
  output : DisplayWord
deriving DecidableEq

/-- The run-extraction loop of `find_palindromes_in_paragraph`
(lines 304-323): `rest` is the unprocessed tail, `i` the index of its head in
the paragraph, `start_pos` and `cur` the state of the current run.  A char
failing `clean` — by returning `False` or by raising — closes the current
run identically. -/
def extractRuns (vc : Option (List PyChar)) :
    List PyChar → Nat → Nat → List PyChar → List (Nat × Nat × List PyChar)
  | [], i, start_pos, cur =>
    if cur.isEmpty then [] else [(start_pos, i - 1, cur)]
  | c :: rest, i, start_pos, cur =>
    match clean c vc with
    | .ok true =>
      let start_pos := if cur.isEmpty then i else start_pos
      extractRuns vc rest (i + 1) start_pos (cur ++ [c])
    | _ =>
      if cur.isEmpty then extractRuns vc rest (i + 1) start_pos []
      else (start_pos, i - 1, cur) :: extractRuns vc rest (i + 1) start_pos []

/-- The per-substring loop body of `find_palindromes_in_paragraph`
(lines 336-346): drive a fresh processor over the substring with
`auto_reset` disabled, breaking on the first false verdict. -/
def driveProcessor (sp : StreamProcessor) (chars_out : List CharTuple) :
    List PyChar → Bool × Option ErrorMsg × List CharTuple × StreamProcessor
  | [] => (true, Option.none, chars_out, sp)
  | c :: rest =>
    let step := sp.process_char (.pystr [c]) false
    if step.1.1 = false then (false, step.1.2.1, [], step.2)
    else driveProcessor step.2 step.1.2.2 rest

/-- The substring pairs `(i, j)`, `i ≤ j < n`, in the enumeration order of the
source's two nested `range` loops. -/
def subPairs (n : Nat) : List (Nat × Nat) :=
  (List.range n).flatMap (fun i => (List.range' i (n - i)).map (fun j => (i, j)))

/-- The inner double loop of `find_palindromes_in_paragraph` over one run
(lines 330-359), processing the `(i, j)` pairs in order. -/
def collectPals (d : Direction) (vc : Option (List PyChar)) (ml : Nat) (start : Nat)
    (seq : List PyChar) : List (Nat × Nat) → Except PyError (List PalRes)
  | [] => .ok []
  | (i, j) :: rest =>
    let substring := (seq.drop i).take (j + 1 - i)
    if substring.length < ml then collectPals d vc ml start seq rest
    else
      let dres := driveProcessor (StreamProcessor.init d vc) [] substring
      if dres.1 = true then
        match String_Output (.pystr substring) dres.1 dres.2.1 d dres.2.2.1 false
            dres.2.2.2.skipped_diacritics dres.2.2.2.skipped_spaces with
        | .error e => .error (.unallowedCharacter e)
        | .ok output =>
          match collectPals d vc ml start seq rest with
          | .error e => .error e
          | .ok rest_results =>
            .ok ({ palindrome := substring, start_pos := start + i, end_pos := start + j,
                   output := output } :: rest_results)
      else collectPals d vc ml start seq rest

/-- The outer loop of `find_palindromes_in_paragraph` over the extracted
runs (lines 327-359). -/
def collectRuns (d : Direction) (vc : Option (List PyChar)) (ml : Nat) :
    List (Nat × Nat × List PyChar) → Except PyError (List PalRes)
  | [] => .ok []
  | (start, _e, seq) :: rest =>
    match collectPals d vc ml start seq (subPairs seq.length) with
    | .error e => .error e
    | .ok ps =>
      match collectRuns d vc ml rest with
      | .error e => .error e
      | .ok qs => .ok (ps ++ qs)

/-- `find_palindromes_in_paragraph`: find all palindromes in a paragraph,
returning their positions and details.  Python defaults:
`direction="ltr"`, `valid_chars=None`, `min_length=1`. -/
def find_palindromes_in_paragraph (paragraph : PyVal) (direction : Direction)
    (valid_chars : Option (List PyChar)) (min_length : Nat) : Except PyError (List PalRes) :=
  match paragraph with
  | .pystr s =>
    if is_empty s = true then .ok []
    else collectRuns direction valid_chars min_length (extractRuns valid_chars s 0 0 [])
  | _ => .error (.invalidInput "Paragraph must be a non-null string")

/-- Feed a list of Python values to a processor one call at a time with
`auto_reset` disabled, collecting every `process_char` result. -/
def processVals (sp : StreamProcessor) : List PyVal → List Output × StreamProcessor
  | [] => ([], sp)
  | v :: rest =>
    let step := sp.process_char v false
    let next := processVals step.2 rest
    (step.1 :: next.1, next.2)

/-- Stream a character sequence through a fresh engine with the default
(unrestricted) alphabet. -/
def processChars (d : Direction) (S : List PyChar) : List Output × StreamProcessor :=
  processVals (StreamProcessor.init d Option.none) (S.map (fun c => PyVal.pystr [c]))

/-- The is-palindrome component of the last `process_char` result. -/
def finalVerdict (d : Direction) (S : List PyChar) : Bool :=
  match (processChars d S).1.getLast? with
  | some out => out.1
  | Option.none => false

/-- A character is accepted by `process_char` — neither skipped (whitespace,
combining mark) nor rejected — iff it is not whitespace, not a non-spacing
mark, and either alphabetic or an allow-listed emoji; such characters are the
ones that enter the buffer under the default (unrestricted) alphabet. -/
def acceptedB (c : PyChar) : Bool :=
  !c.isSpace && !c.isMn && (c.isAlpha || (is_emoticon c).2)

/-- A lowercase ASCII letter with code point `c`. -/
def mkLower (c : Nat) : PyChar :=
  { code := c, isAlpha := true, isSpace := false, isMn := false, isUpper := false,
    lowerCode := c, upperCode := c - 32, lowerIsAlpha := true, hashNormalized := 0 }

/-- An uppercase ASCII letter with code point `c`. -/
def mkUpper (c : Nat) : PyChar :=
  { code := c, isAlpha := true, isSpace := false, isMn := false, isUpper := true,
    lowerCode := c + 32, upperCode := c, lowerIsAlpha := true, hashNormalized := 0 }

def chA : PyChar := mkLower 97
def chB : PyChar := mkLower 98
def chC : PyChar := mkLower 99
def chL : PyChar := mkLower 108
def chM : PyChar := mkLower 109
def chN : PyChar := mkLower 110
def chP : PyChar := mkLower 112
def chCapA : PyChar := mkUpper 65
def chCapP : PyChar := mkUpper 80

/-- The space character. -/
def chSpace : PyChar :=
  { code := 32, isAlpha := false, isSpace := true, isMn := false, isUpper := false,
    lowerCode := 32, upperCode := 32, lowerIsAlpha := false, hashNormalized := 32 }

/-- U+0301 COMBINING ACUTE ACCENT, a non-spacing mark (category `Mn`). -/
def chMark : PyChar :=
  { code := 769, isAlpha := false, isSpace := false, isMn := true, isUpper := false,
    lowerCode := 769, upperCode := 769, lowerIsAlpha := false, hashNormalized := 769 }

def chComma : PyChar := mkSymbol 44
def chHyphen : PyChar := mkSymbol 45

/-- The test paragraph `"A man, a plan, a canal -- Panama"`. -/
def panamaText : List PyChar :=
  [chCapA, chSpace, chM, chA, chN, chComma, chSpace, chA, chSpace, chP, chL, chA, chN, chComma,
   chSpace, chA, chSpace, chC, chA, chN, chA, chL, chSpace, chHyphen, chHyphen, chSpace,
   chCapP, chA, chN, chA, chM, chA]

/-- Lowered code points of `"amanaplanacanalpanama"`. -/
def panamaTarget : List Nat :=
  [97, 109, 97, 110, 97, 112, 108, 97, 110, 97, 99, 97, 110, 97, 108, 112, 97, 110, 97, 109, 97]

/-- The batch scan of the test paragraph with the default topology and
`min_length = 2`. -/
def c3scan : Except PyError (List PalRes) :=
  find_palindromes_in_paragraph (.pystr panamaText) Direction.ltr Option.none 2

/-- Whether the batch scan reports a palindrome whose case-folded character
sequence is `"amanaplanacanalpanama"`. -/
def c3claimFound : Bool :=
  match c3scan with
  | .ok res => res.any (fun p => decide (p.palindrome.map (fun c => c.lowerCode) = panamaTarget))
  | .error _ => false

/-- The five skin tone modifier code points. -/
def toneModifiers : List PyChar := [tone1, tone2, tone3, tone4, tone5]

/-- Fallback output used when indexing output lists. -/
def defaultOutput : Output := (false, Option.none, [])

/-- The tuple recorded by `Left.get_hash` for an accepted character:
`(char, isupper, False, True)` for a letter, `(char, False, True, True)` for
an allow-listed emoji. -/
def recTuple (c : PyChar) : CharTuple :=
  if c.isAlpha = true then (c, c.isUpper, false, true) else (c, false, true, true)

/-- One full re-validation pass over `buffer` with the unrestricted alphabet:
the cursor start positions and the fuel are exactly those computed by
`process_char` after appending a character. -/
def validate (d : Direction) (buffer : List PyChar) : LoopResult :=
  let n := buffer.length
  let posPair : Int × Int :=
    match d with
    | .centerOut =>
      let center := n / 2
      (((center : Nat) : Int) - ((n / 2 : Nat) : Int),
       ((center : Nat) : Int) + ((n / 2 : Nat) : Int))
    | .ltr => (0, (n : Int) - 1)
    | .rtl => ((n : Int) - 1, 0)
  palLoop (n + 1) d
    { buffer := buffer, pos := posPair.1, direction := d, valid_chars := Option.none,
      valid := true, chars := [] }
    { buffer := buffer, pos := posPair.2, direction := d, valid_chars := Option.none,
      valid := true }

/-- The verdict of one re-validation pass. -/
def stepVerdict (d : Direction) (buffer : List PyChar) : Bool :=
  match validate d buffer with
  | .completed l r => l.valid && r.valid
  | _ => false

/-- The recorded characters returned by one re-validation pass. -/
def stepChars (d : Direction) (buffer : List PyChar) : List CharTuple :=
  match validate d buffer with
  | .completed l r => if (l.valid && r.valid) = true then l.chars else []
  | _ => []

/-- The `process_char` output after appending an accepted character to a
buffer of accepted characters with no pending error. -/
def stepOut (d : Direction) (buffer : List PyChar) : Output :=
  (stepVerdict d buffer, Option.none, stepChars d buffer)

/-- Invariant of an engine that has consumed only accepted characters with
the unrestricted alphabet: direction `d`, buffer `B` of accepted characters,
not stopped, no stored error. -/
def Good (d : Direction) (B : List PyChar) (sp : StreamProcessor) : Prop :=
  sp.direction = d ∧ sp.valid_chars = Option.none ∧ sp.buffer = B ∧
  sp.stopped = false ∧ sp.error_msg = Option.none ∧ ∀ c ∈ B, acceptedB c = true

/-- The outputs produced by feeding accepted characters to a `Good` engine
whose buffer already holds `B`: one re-validation pass per character, each on
the grown buffer. -/
def acceptedOuts (d : Direction) (B : List PyChar) : List PyChar → List Output
  | [] => []
  | c :: rest => stepOut d (B ++ [c]) :: acceptedOuts d (B ++ [c]) rest

/-- The observable part of a loop result: which exit was taken, and the
cursor fields `process_char` goes on to read (`valid` flags, recorded
characters). -/
inductive LoopCore where
  | raisedC (e : PyChar)
  | mismatchC
  | completedC (v : Bool) (chars : List CharTuple)
deriving DecidableEq

/-- Projection of a loop result to its observable part. -/
def LoopResult.core : LoopResult → LoopCore
  | .raised e => .raisedC e
  | .mismatch _ _ => .mismatchC
  | .completed l r => .completedC (l.valid && r.valid) l.chars

/-- Two left cursors that agree on everything except the stored direction. -/
def mirrorL (l l' : Left) : Prop :=
  l.buffer = l'.buffer ∧ l.pos = l'.pos ∧ l.valid_chars = l'.valid_chars ∧
  l.valid = l'.valid ∧ l.chars = l'.chars

/-- Two right cursors that agree on everything except the stored direction. -/
def mirrorR (r r' : Right) : Prop :=
  r.buffer = r'.buffer ∧ r.pos = r'.pos ∧ r.valid_chars = r'.valid_chars ∧ r.valid = r'.valid

/-- The two topologies whose cursors walk left-to-right: `ltr` and
`center-out` make every direction test in the loop, the cursors and the
guard take the same branch. -/
def forward (d : Direction) : Prop := d = Direction.ltr ∨ d = Direction.centerOut

/-- A stopped engine with a stored input error, as reached by feeding a
non-character value to a fresh engine. -/
def stoppedEngine : StreamProcessor :=
  { buffer := [], direction := Direction.ltr, valid_chars := Option.none, valid := false,
    error_msg := some ErrorMsg.inputError, stopped := true, skipped_diacritics := 0,
    skipped_spaces := 0 }

/-! ## Theorems -/

/-- Claim C1: direction symmetry fails on the code.  For `S = "aa"`, the
`ltr` run of `S` ends with verdict `true`, but the `rtl` run of `reverse S`
ends with verdict `false`: `Right.advance` subtracts `1` for every topology
(its conditional yields `1` in both branches), so under `rtl` the right
cursor starts at index 0 and immediately walks off the front of the buffer,
invalidating itself. -/
theorem c1_direction_symmetry_eval :
    finalVerdict Direction.ltr [chA, chA] = true ∧
    finalVerdict Direction.rtl (List.reverse [chA, chA]) = false := by
  decide

/-- Claim C2 counterexample: after the second appended character of `"aa"`,
the `ltr` engine's verdict is `true` but the center-out engine's verdict is
`false` (its right start position is `len(buffer) // 2 + len(buffer) // 2 = 2`,
one past the end of the buffer), so center-out does not return the same
verdict as `ltr` after each appended character. -/
theorem c2_centerout_counterexample :
    finalVerdict Direction.ltr [chA, chA] = true ∧
    finalVerdict Direction.centerOut [chA, chA] = false := by
  decide

/-- Claim C3 counterexample: the batch scan of
`"A man, a plan, a canal -- Panama"` with default topology and
`min_length = 2` reports no palindrome whose case-folded character sequence
is `"amanaplanacanalpanama"`. -/
theorem c3_panama_counterexample : c3claimFound = false := by
  decide

/-- Claim C3 amended: that scan in fact returns the empty list.  Runs are
broken at every space and punctuation mark, so no subrange covers the
cleaned sequence; moreover the driver breaks at the first false verdict, so
a subrange is recorded only when every prefix of it is a palindrome, which
eliminates every candidate of this paragraph. -/
theorem c3_panama_scan_empty : c3scan = .ok [] := by
  rfl

/-- Claim C4 counterexample: for the accepted character `'a'`, `process_char`
on a fresh engine returns verdict `true` with an *empty* recorded-characters
list, not one of length 1 — the validation loop's guard `0 < 0` fails
immediately, so the recording cursor never stores anything. -/
theorem c4_single_char_counterexample :
    acceptedB chA = true ∧
    ((StreamProcessor.init Direction.ltr Option.none).process_char (.pystr [chA]) false).1 =
      (true, Option.none, ([] : List CharTuple)) := by
  decide

/-- Claim C5 counterexample: streaming `"aba"` ends with verdict `true` and
recorded half `[('a', lower, letter)]`; the renderer then emits just `"a"`
(code 97), which is not the original window content `"aba"`. -/
theorem c5_render_counterexample :
    (processChars Direction.ltr [chA, chB, chA]).1.getLast? =
      some (true, Option.none, [(chA, false, false, true)]) ∧
    String_Output (.pystr [chA, chB, chA]) true Option.none Direction.ltr
      [(chA, false, false, true)] false 0 0 = .ok (.rendered [97]) ∧
    [97] ≠ List.map PyChar.code [chA, chB, chA] :=
  ⟨by rfl, by rfl, by decide⟩

/-- Claim C6 counterexample: streaming the skin-toned thumbs-up variant
(base glyph followed by the tone-1 modifier) twice ends with verdict `false`:
the modifier code point is not itself in `ALLOWED_EMOJIS`, so `clean` raises
and the engine latches Stopped. -/
theorem c6_tone_variant_counterexample :
    finalVerdict Direction.ltr [eThumb, tone1, eThumb, tone1] = false := by
  decide

/-- Claim C6 amended: only the base thumbs-up glyph verdicts `true` against
itself; each of the five tone-modified variants is a two-code-point sequence
whose modifier is rejected by strict classification, so streaming the variant
twice ends `false` with the engine stopped. -/
theorem c6_thumbs_up_amended :
    finalVerdict Direction.ltr [eThumb, eThumb] = true ∧
    (toneModifiers.all (fun m =>
      !finalVerdict Direction.ltr [eThumb, m, eThumb, m] &&
      (processChars Direction.ltr [eThumb, m, eThumb, m]).2.stopped)) = true := by
  decide

/-! ### Classification and cursor lemmas -/

theorem acceptedB_spec {c : PyChar} (h : acceptedB c = true) :
    c.isSpace = false ∧ c.isMn = false ∧ (c.isAlpha = true ∨ (is_emoticon c).2 = true) := by
  simp only [acceptedB, Bool.and_eq_true, Bool.not_eq_true', Bool.or_eq_true] at h
  exact ⟨h.1.1, h.1.2, h.2⟩

theorem clean_of_accepted {c : PyChar} (h : acceptedB c = true) :
    clean c Option.none = .ok true := by
  obtain ⟨hs, hm, ha⟩ := acceptedB_spec h
  by_cases hA : c.isAlpha = true
  · simp [clean, hs, hm, hA]
  · have he : (is_emoticon c).2 = true := by
      rcases ha with ha | ha
      · exact absurd ha hA
      · exact ha
    simp [clean, hs, hm, hA, he]

theorem clean_true_not_mn {c : PyChar} {vc : Option (List PyChar)}
    (h : clean c vc = .ok true) : c.isMn = false := by
  by_cases hsm : c.isSpace = true ∨ c.isMn = true
  · unfold clean at h
    rw [if_pos hsm] at h
    simp at h
  · cases hmn : c.isMn
    · rfl
    · exact absurd (Or.inr hmn) hsm

theorem getD_mem {α : Type} (l : List α) (n : Nat) (d : α) (h : n < l.length) :
    l.getD n d ∈ l := by
  rw [List.getD_eq_getElem?_getD, List.getElem?_eq_getElem h]
  exact List.getElem_mem h

theorem left_advance_buffer (l : Left) : l.advance.buffer = l.buffer := by
  unfold Left.advance
  dsimp only
  split <;> split <;> rfl

theorem left_advance_vc (l : Left) : l.advance.valid_chars = l.valid_chars := by
  unfold Left.advance
  dsimp only
  split <;> split <;> rfl

theorem right_advance_buffer (r : Right) : r.advance.buffer = r.buffer := by
  unfold Right.advance
  dsimp only
  split <;> split <;> rfl

theorem right_advance_vc (r : Right) : r.advance.valid_chars = r.valid_chars := by
  unfold Right.advance
  dsimp only
  split <;> split <;> rfl

theorem left_get_hash_oob {l : Left}
    (h : l.valid = false ∨ l.pos < 0 ∨ l.pos ≥ (l.buffer.length : Int)) :
    l.get_hash = .ok (Option.none, { l with valid := false }) := by
  unfold Left.get_hash
  rw [if_pos h]

theorem right_get_hash_oob {r : Right}
    (h : r.valid = false ∨ r.pos < 0 ∨ r.pos ≥ (r.buffer.length : Int)) :
    r.get_hash = .ok (Option.none, { r with valid := false }) := by
  unfold Right.get_hash
  rw [if_pos h]

theorem left_get_hash_acc {l : Left} (hv : l.valid = true) (hvc : l.valid_chars = Option.none)
    (h0 : 0 ≤ l.pos) (hlen : l.pos < (l.buffer.length : Int))
    (hacc : acceptedB (l.buffer.getD l.pos.toNat defaultChar) = true) :
    l.get_hash = .ok (some (hash_char (l.buffer.getD l.pos.toNat defaultChar)),
      { l with chars := l.chars ++ [recTuple (l.buffer.getD l.pos.toNat defaultChar)] }) := by
  obtain ⟨_, _, ha⟩ := acceptedB_spec hacc
  unfold Left.get_hash recTuple
  rw [if_neg (by push_neg; exact ⟨by simp [hv], h0, hlen⟩)]
  dsimp only
  rw [hvc, clean_of_accepted hacc]
  dsimp only
  by_cases hA : (l.buffer.getD l.pos.toNat defaultChar).isAlpha = true
  · rw [if_pos hA, if_pos hA]
  · have he : (is_emoticon (l.buffer.getD l.pos.toNat defaultChar)).2 = true := by
      rcases ha with ha | ha
      · exact absurd ha hA
      · exact ha
    rw [if_neg hA, if_neg hA, he, if_neg (by simp)]

theorem right_get_hash_acc {r : Right} (hv : r.valid = true) (hvc : r.valid_chars = Option.none)
    (h0 : 0 ≤ r.pos) (hlen : r.pos < (r.buffer.length : Int))
    (hacc : acceptedB (r.buffer.getD r.pos.toNat defaultChar) = true) :
    r.get_hash = .ok (some (hash_char (r.buffer.getD r.pos.toNat defaultChar)), r) := by
  obtain ⟨_, _, ha⟩ := acceptedB_spec hacc
  unfold Right.get_hash
  rw [if_neg (by push_neg; exact ⟨by simp [hv], h0, hlen⟩)]
  dsimp only
  rw [hvc, clean_of_accepted hacc]
  dsimp only
  rw [if_neg (by
    rintro ⟨h1, h2⟩
    rcases ha with ha | ha
    · rw [ha] at h1; cases h1
    · rw [ha] at h2; cases h2)]

theorem left_get_hash_ok {l : Left} (hvc : l.valid_chars = Option.none)
    (hacc : ∀ c ∈ l.buffer, acceptedB c = true) :
    ∃ h l1, l.get_hash = .ok (h, l1) ∧ l1.buffer = l.buffer ∧ l1.valid_chars = l.valid_chars := by
  by_cases hc : l.valid = false ∨ l.pos < 0 ∨ l.pos ≥ (l.buffer.length : Int)
  · exact ⟨_, _, left_get_hash_oob hc, rfl, rfl⟩
  · push_neg at hc
    obtain ⟨h1, h2, h3⟩ := hc
    have hv : l.valid = true := by
      cases hval : l.valid
      · exact absurd hval h1
      · rfl
    have hmem : l.buffer.getD l.pos.toNat defaultChar ∈ l.buffer := by
      apply getD_mem
      omega
    refine ⟨_, _, left_get_hash_acc hv hvc h2 h3 (hacc _ hmem), rfl, rfl⟩

theorem right_get_hash_ok {r : Right} (hvc : r.valid_chars = Option.none)
    (hacc : ∀ c ∈ r.buffer, acceptedB c = true) :
    ∃ h r1, r.get_hash = .ok (h, r1) ∧ r1.buffer = r.buffer ∧ r1.valid_chars = r.valid_chars := by
  by_cases hc : r.valid = false ∨ r.pos < 0 ∨ r.pos ≥ (r.buffer.length : Int)
  · exact ⟨_, _, right_get_hash_oob hc, rfl, rfl⟩
  · push_neg at hc
    obtain ⟨h1, h2, h3⟩ := hc
    have hv : r.valid = true := by
      cases hval : r.valid
      · exact absurd hval h1
      · rfl
    have hmem : r.buffer.getD r.pos.toNat defaultChar ∈ r.buffer := by
      apply getD_mem
      omega
    refine ⟨_, _, right_get_hash_acc hv hvc h2 h3 (hacc _ hmem), rfl, rfl⟩

theorem palLoop_no_raise : ∀ (fuel : Nat) (d : Direction) (l : Left) (r : Right),
    l.valid_chars = Option.none → r.valid_chars = Option.none →
    (∀ c ∈ l.buffer, acceptedB c = true) → (∀ c ∈ r.buffer, acceptedB c = true) →
    ∀ e, palLoop fuel d l r ≠ .raised e
  | 0, d, l, r, _, _, _, _, e => by simp [palLoop]
  | Nat.succ fuel, d, l, r, hvcl, hvcr, haccl, haccr, e => by
    unfold palLoop
    split
    · obtain ⟨hl, l1, hgl, hbl, hvl⟩ := left_get_hash_ok hvcl haccl
      obtain ⟨hr, r1, hgr, hbr, hvr⟩ := right_get_hash_ok hvcr haccr
      rw [hgl]
      dsimp only
      rw [hgr]
      dsimp only
      split
      · simp
      · exact palLoop_no_raise fuel d l1.advance r1.advance
          (by rw [left_advance_vc, hvl, hvcl])
          (by rw [right_advance_vc, hvr, hvcr])
          (by rw [left_advance_buffer, hbl]; exact haccl)
          (by rw [right_advance_buffer, hbr]; exact haccr)
          e
    · simp

theorem mem_append_accepted {B : List PyChar} {c : PyChar}
    (hB : ∀ x ∈ B, acceptedB x = true) (hc : acceptedB c = true) :
    ∀ x ∈ B ++ [c], acceptedB x = true := by
  intro x hx
  rcases List.mem_append.mp hx with h | h
  · exact hB x h
  · rcases List.mem_singleton.mp h with rfl
    exact hc

theorem process_char_accepted {d : Direction} {B : List PyChar} {sp : StreamProcessor}
    {c : PyChar} (hg : Good d B sp) (hc : acceptedB c = true) :
    sp.process_char (.pystr [c]) false =
      (stepOut d (B ++ [c]),
       { sp with
           buffer := B ++ [c], valid := stepVerdict d (B ++ [c]),
           error_msg := Option.none }) := by
  obtain ⟨hd, hvc, hb, hst, he, hBacc⟩ := hg
  obtain ⟨hs, hm, _⟩ := acceptedB_spec hc
  have hacc' : ∀ x ∈ B ++ [c], acceptedB x = true := mem_append_accepted hBacc hc
  unfold StreamProcessor.process_char
  simp only [hst, hs, hm, hvc, hb, hd, he, clean_of_accepted hc, Bool.false_eq_true,
    and_false, if_false, if_neg, Bool.false_eq_true]
  simp only [stepOut, stepVerdict, stepChars, validate]
  split
  · rename_i e heq
    exact absurd heq (palLoop_no_raise _ _ _ _ rfl rfl hacc' hacc' e)
  · rename_i l1 r1 heq
    rw [heq]
  · rename_i l1 r1 heq
    rw [heq]

theorem processVals_accepted {d : Direction} :
    ∀ (S : List PyChar) (B : List PyChar) (sp : StreamProcessor),
      Good d B sp → (∀ c ∈ S, acceptedB c = true) →
      (processVals sp (S.map (fun c => PyVal.pystr [c]))).1 = acceptedOuts d B S ∧
      Good d (B ++ S) (processVals sp (S.map (fun c => PyVal.pystr [c]))).2 ∧
      (processVals sp (S.map (fun c => PyVal.pystr [c]))).2.skipped_diacritics =
        sp.skipped_diacritics ∧
      (processVals sp (S.map (fun c => PyVal.pystr [c]))).2.skipped_spaces = sp.skipped_spaces
  | [], B, sp, hg, _ => by
    refine ⟨by simp [processVals, acceptedOuts], ?_, by simp [processVals], by simp [processVals]⟩
    rw [List.append_nil]
    exact hg
  | c :: rest, B, sp, hg, hS => by
    have hc : acceptedB c = true := hS c (List.mem_cons_self c rest)
    have hrest : ∀ x ∈ rest, acceptedB x = true := fun x hx => hS x (List.mem_cons_of_mem c hx)
    have hstep := process_char_accepted hg hc
    have hgood' : Good d (B ++ [c])
        { sp with
            buffer := B ++ [c], valid := stepVerdict d (B ++ [c]),
            error_msg := Option.none } := by
      obtain ⟨hd, hvc, hb, hst, he, hBacc⟩ := hg
      exact ⟨hd, hvc, rfl, hst, rfl, mem_append_accepted hBacc hc⟩
    obtain ⟨h1, h2, h3, h4⟩ := processVals_accepted rest (B ++ [c]) _ hgood' hrest
    rw [List.map_cons]
    unfold processVals
    rw [hstep]
    dsimp only
    refine ⟨by rw [h1]; rfl, ?_, by rw [h3], by rw [h4]⟩
    rw [List.append_cons]
    exact h2

theorem left_advance_direction (l : Left) : l.advance.direction = l.direction := by
  unfold Left.advance
  dsimp only
  split <;> split <;> rfl

theorem right_advance_direction (r : Right) : r.advance.direction = r.direction := by
  unfold Right.advance
  dsimp only
  split <;> split <;> rfl

theorem loopCond_forward {d : Direction} (h : forward d) {a b : Int} :
    loopCond d a b ↔ a < b := by
  rcases h with h | h <;> subst h <;> simp [loopCond]

theorem left_get_hash_mirror {l l' : Left} (h : mirrorL l l') :
    (∃ e, l.get_hash = .error e ∧ l'.get_hash = .error e) ∨
    (∃ oh m m', l.get_hash = .ok (oh, m) ∧ l'.get_hash = .ok (oh, m') ∧ mirrorL m m' ∧
      m.direction = l.direction ∧ m'.direction = l'.direction) := by
  obtain ⟨lb, lp, ld, lvc, lv, lch⟩ := l
  obtain ⟨lb2, lp2, ld2, lvc2, lv2, lch2⟩ := l'
  obtain ⟨hb, hp, hvc, hv, hch⟩ := h
  dsimp only at hb hp hvc hv hch
  subst hb; subst hp; subst hvc; subst hv; subst hch
  unfold Left.get_hash
  dsimp only
  by_cases hoob : lv = false ∨ lp < 0 ∨ lp ≥ (lb.length : Int)
  · rw [if_pos hoob, if_pos hoob]
    exact Or.inr ⟨Option.none, ⟨lb, lp, ld, lvc, false, lch⟩, ⟨lb, lp, ld2, lvc, false, lch⟩,
      rfl, rfl, ⟨rfl, rfl, rfl, rfl, rfl⟩, rfl, rfl⟩
  · rw [if_neg hoob, if_neg hoob]
    cases hcl : clean (lb.getD lp.toNat defaultChar) lvc with
    | error e =>
      exact Or.inl ⟨e, by simp only [hcl], by simp only [hcl]⟩
    | ok b =>
      cases b with
      | false =>
        exact Or.inr ⟨Option.none, ⟨lb, lp, ld, lvc, false, lch⟩, ⟨lb, lp, ld2, lvc, false, lch⟩,
          by simp only [hcl], by simp only [hcl], ⟨rfl, rfl, rfl, rfl, rfl⟩, rfl, rfl⟩
      | true =>
        by_cases hA : (lb.getD lp.toNat defaultChar).isAlpha = true
        · exact Or.inr ⟨some (hash_char (lb.getD lp.toNat defaultChar)),
            ⟨lb, lp, ld, lvc, lv,
              lch ++ [(lb.getD lp.toNat defaultChar, (lb.getD lp.toNat defaultChar).isUpper,
                false, true)]⟩,
            ⟨lb, lp, ld2, lvc, lv,
              lch ++ [(lb.getD lp.toNat defaultChar, (lb.getD lp.toNat defaultChar).isUpper,
                false, true)]⟩,
            by simp only [hcl]; rw [if_pos hA],
            by simp only [hcl]; rw [if_pos hA],
            ⟨rfl, rfl, rfl, rfl, rfl⟩, rfl, rfl⟩
        · by_cases hE : (is_emoticon (lb.getD lp.toNat defaultChar)).2 = false
          · exact Or.inr ⟨Option.none, ⟨lb, lp, ld, lvc, false, lch⟩,
              ⟨lb, lp, ld2, lvc, false, lch⟩,
              by simp only [hcl]; rw [if_neg hA]; rw [if_pos hE],
              by simp only [hcl]; rw [if_neg hA]; rw [if_pos hE],
              ⟨rfl, rfl, rfl, rfl, rfl⟩, rfl, rfl⟩
          · exact Or.inr ⟨some (hash_char (lb.getD lp.toNat defaultChar)),
              ⟨lb, lp, ld, lvc, lv,
                lch ++ [(lb.getD lp.toNat defaultChar, false,
                  (is_emoticon (lb.getD lp.toNat defaultChar)).2,
                  (is_emoticon (lb.getD lp.toNat defaultChar)).2)]⟩,
              ⟨lb, lp, ld2, lvc, lv,
                lch ++ [(lb.getD lp.toNat defaultChar, false,
                  (is_emoticon (lb.getD lp.toNat defaultChar)).2,
                  (is_emoticon (lb.getD lp.toNat defaultChar)).2)]⟩,
              by simp only [hcl]; rw [if_neg hA]; rw [if_neg hE],
              by simp only [hcl]; rw [if_neg hA]; rw [if_neg hE],
              ⟨rfl, rfl, rfl, rfl, rfl⟩, rfl, rfl⟩

theorem right_get_hash_mirror {r r' : Right} (h : mirrorR r r') :
    (∃ e, r.get_hash = .error e ∧ r'.get_hash = .error e) ∨
    (∃ oh m m', r.get_hash = .ok (oh, m) ∧ r'.get_hash = .ok (oh, m') ∧ mirrorR m m' ∧
      m.direction = r.direction ∧ m'.direction = r'.direction) := by
  obtain ⟨rb, rp, rd, rvc, rv⟩ := r
  obtain ⟨rb2, rp2, rd2, rvc2, rv2⟩ := r'
  obtain ⟨hb, hp, hvc, hv⟩ := h
  dsimp only at hb hp hvc hv
  subst hb; subst hp; subst hvc; subst hv
  unfold Right.get_hash
  dsimp only
  by_cases hoob : rv = false ∨ rp < 0 ∨ rp ≥ (rb.length : Int)
  · rw [if_pos hoob, if_pos hoob]
    exact Or.inr ⟨Option.none, ⟨rb, rp, rd, rvc, false⟩, ⟨rb, rp, rd2, rvc, false⟩,
      rfl, rfl, ⟨rfl, rfl, rfl, rfl⟩, rfl, rfl⟩
  · rw [if_neg hoob, if_neg hoob]
    cases hcl : clean (rb.getD rp.toNat defaultChar) rvc with
    | error e =>
      exact Or.inl ⟨e, by simp only [hcl], by simp only [hcl]⟩
    | ok b =>
      cases b with
      | false =>
        exact Or.inr ⟨Option.none, ⟨rb, rp, rd, rvc, false⟩, ⟨rb, rp, rd2, rvc, false⟩,
          by simp only [hcl], by simp only [hcl], ⟨rfl, rfl, rfl, rfl⟩, rfl, rfl⟩
      | true =>
        by_cases hR : (rb.getD rp.toNat defaultChar).isAlpha = false ∧
            (is_emoticon (rb.getD rp.toNat defaultChar)).2 = false
        · exact Or.inr ⟨Option.none, ⟨rb, rp, rd, rvc, false⟩, ⟨rb, rp, rd2, rvc, false⟩,
            by simp only [hcl]; rw [if_pos hR], by simp only [hcl]; rw [if_pos hR],
            ⟨rfl, rfl, rfl, rfl⟩, rfl, rfl⟩
        · exact Or.inr ⟨some (hash_char (rb.getD rp.toNat defaultChar)),
            ⟨rb, rp, rd, rvc, rv⟩, ⟨rb, rp, rd2, rvc, rv⟩,
            by simp only [hcl]; rw [if_neg hR], by simp only [hcl]; rw [if_neg hR],
            ⟨rfl, rfl, rfl, rfl⟩, rfl, rfl⟩

theorem left_advance_mirror {l l' : Left} (h : mirrorL l l')
    (hd : forward l.direction) (hd' : forward l'.direction) :
    mirrorL l.advance l'.advance := by
  obtain ⟨lb, lp, ld, lvc, lv, lch⟩ := l
  obtain ⟨lb', lp', ld', lvc', lv', lch'⟩ := l'
  obtain ⟨hb, hp, hvc, hv, hch⟩ := h
  dsimp only at hb hp hvc hv hch
  subst hb; subst hp; subst hvc; subst hv; subst hch
  unfold forward at hd hd'
  dsimp only at hd hd'
  unfold Left.advance
  dsimp only
  rw [if_pos hd, if_pos hd']
  split <;> exact ⟨rfl, rfl, rfl, rfl, rfl⟩

theorem right_advance_mirror {r r' : Right} (h : mirrorR r r') :
    mirrorR r.advance r'.advance := by
  obtain ⟨rb, rp, rd, rvc, rv⟩ := r
  obtain ⟨rb', rp', rd', rvc', rv'⟩ := r'
  obtain ⟨hb, hp, hvc, hv⟩ := h
  dsimp only at hb hp hvc hv
  subst hb; subst hp; subst hvc; subst hv
  unfold Right.advance
  dsimp only
  rw [ite_self, ite_self]
  split <;> exact ⟨rfl, rfl, rfl, rfl⟩

theorem palLoop_core_mirror :
    ∀ (fuel : Nat) (d d' : Direction) (l : Left) (r : Right) (l' : Left) (r' : Right),
      forward d → forward d' → forward l.direction → forward l'.direction →
      mirrorL l l' → mirrorR r r' →
      (palLoop fuel d l r).core = (palLoop fuel d' l' r').core
  | 0, d, d', l, r, l', r', _, _, _, _, hml, hmr => by
    obtain ⟨_, _, _, hv, hch⟩ := hml
    obtain ⟨_, _, _, hv2⟩ := hmr
    simp [palLoop, LoopResult.core, hv, hch, hv2]
  | Nat.succ fuel, d, d', l, r, l', r', hd, hd', hld, hld', hml, hmr => by
    obtain ⟨hb, hp, hvc, hv, hch⟩ := hml
    obtain ⟨hb2, hp2, hvc2, hv2⟩ := hmr
    unfold palLoop
    by_cases hcond : l.valid = true ∧ r.valid = true ∧ l.pos < r.pos
    · rw [if_pos (show l.valid = true ∧ r.valid = true ∧ loopCond d l.pos r.pos from
          ⟨hcond.1, hcond.2.1, (loopCond_forward hd).mpr hcond.2.2⟩)]
      rw [if_pos (show l'.valid = true ∧ r'.valid = true ∧ loopCond d' l'.pos r'.pos from
          ⟨by rw [← hv]; exact hcond.1, by rw [← hv2]; exact hcond.2.1,
           (loopCond_forward hd').mpr (by rw [← hp, ← hp2]; exact hcond.2.2)⟩)]
      rcases left_get_hash_mirror ⟨hb, hp, hvc, hv, hch⟩ with
        ⟨e, he, he2⟩ | ⟨oh, m, m2, hm, hm2, hmm, hdm, hdm2⟩
      · rw [he, he2]
      · rw [hm, hm2]
        dsimp only
        rcases right_get_hash_mirror ⟨hb2, hp2, hvc2, hv2⟩ with
          ⟨e, he, he2⟩ | ⟨oh2, n, n2, hn, hn2, hnn, hdn, hdn2⟩
        · rw [he, he2]
        · rw [hn, hn2]
          dsimp only
          by_cases hmis : oh = Option.none ∨ oh2 = Option.none ∨ oh ≠ oh2
          · rw [if_pos hmis, if_pos hmis]
            rfl
          · rw [if_neg hmis, if_neg hmis]
            exact palLoop_core_mirror fuel d d' m.advance n.advance m2.advance n2.advance hd hd'
              (by rw [left_advance_direction, hdm]; exact hld)
              (by rw [left_advance_direction, hdm2]; exact hld')
              (left_advance_mirror hmm (by rw [hdm]; exact hld) (by rw [hdm2]; exact hld'))
              (right_advance_mirror hnn)
    · rw [if_neg (fun hc => hcond ⟨hc.1, hc.2.1, (loopCond_forward hd).mp hc.2.2⟩)]
      rw [if_neg (fun hc => hcond ⟨by rw [hv]; exact hc.1, by rw [hv2]; exact hc.2.1,
          by rw [hp, hp2]; exact (loopCond_forward hd').mp hc.2.2⟩)]
      simp [LoopResult.core, hv, hch, hv2]

theorem stepOut_eq_of_core {d d' : Direction} {b b' : List PyChar}
    (h : (validate d b).core = (validate d' b').core) : stepOut d b = stepOut d' b' := by
  unfold stepOut stepVerdict stepChars
  cases hv : validate d b <;> cases hv' : validate d' b'
  all_goals rw [hv, hv'] at h
  all_goals simp only [LoopResult.core] at h
  all_goals try (injection h with h1 h2; simp [h1, h2])
  all_goals exact absurd h (by simp)

theorem validate_co_odd {buf : List PyChar} (hodd : buf.length % 2 = 1) :
    (validate Direction.centerOut buf).core = (validate Direction.ltr buf).core := by
  unfold validate
  dsimp only
  have h1 : ((buf.length / 2 : Nat) : Int) - ((buf.length / 2 : Nat) : Int) = 0 := by omega
  have h2 : ((buf.length / 2 : Nat) : Int) + ((buf.length / 2 : Nat) : Int) =
      (buf.length : Int) - 1 := by omega
  rw [h1, h2]
  exact palLoop_core_mirror _ _ _ _ _ _ _ (Or.inr rfl) (Or.inl rfl) (Or.inr rfl) (Or.inl rfl)
    ⟨rfl, rfl, rfl, rfl, rfl⟩ ⟨rfl, rfl, rfl, rfl⟩

theorem stepOut_co_even {buf : List PyChar} (heven : buf.length % 2 = 0) (hne : buf ≠ [])
    (hacc : ∀ c ∈ buf, acceptedB c = true) :
    stepOut Direction.centerOut buf = (false, Option.none, []) := by
  have hlen : 0 < buf.length := List.length_pos.mpr hne
  have hmis : ∃ a b, validate Direction.centerOut buf = .mismatch a b := by
    unfold validate
    dsimp only
    have h1 : ((buf.length / 2 : Nat) : Int) - ((buf.length / 2 : Nat) : Int) = 0 := by omega
    have h2 : ((buf.length / 2 : Nat) : Int) + ((buf.length / 2 : Nat) : Int) =
        (buf.length : Int) := by omega
    rw [h1, h2]
    simp only [palLoop]
    rw [if_pos (show True ∧ True ∧ loopCond Direction.centerOut 0 (buf.length : Int) from
      ⟨trivial, trivial, (loopCond_forward (Or.inr rfl)).mpr (by exact_mod_cast hlen)⟩)]
    rw [left_get_hash_acc rfl rfl (by dsimp only; omega)
      (by dsimp only; exact_mod_cast hlen)
      (hacc _ (getD_mem _ _ _ (by dsimp only; omega)))]
    dsimp only
    rw [right_get_hash_oob (Or.inr (Or.inr (by dsimp only; omega)))]
    dsimp only
    rw [if_pos (Or.inr (Or.inl rfl))]
    exact ⟨_, _, rfl⟩
  obtain ⟨a, b, hab⟩ := hmis
  unfold stepOut stepVerdict stepChars
  rw [hab]

theorem acceptedOuts_length (d : Direction) :
    ∀ (S B : List PyChar), (acceptedOuts d B S).length = S.length
  | [], _ => rfl
  | c :: rest, B => by
    unfold acceptedOuts
    rw [List.length_cons, acceptedOuts_length d rest (B ++ [c]), List.length_cons]

theorem acceptedOuts_getD (d : Direction) :
    ∀ (S B : List PyChar) (k : Nat), k < S.length →
      (acceptedOuts d B S).getD k defaultOutput = stepOut d (B ++ S.take (k + 1))
  | [], _, k, hk => absurd hk (by simp)
  | c :: rest, B, 0, _ => by
    unfold acceptedOuts
    simp
  | c :: rest, B, Nat.succ k, hk => by
    unfold acceptedOuts
    rw [List.getD_cons_succ]
    rw [acceptedOuts_getD d rest (B ++ [c]) k (by simpa using hk)]
    rw [List.take_succ_cons]
    congr 1
    simp

/-- Claim C2 amended: center-out matches `ltr` only on odd-length buffers.
While the buffer length is odd, the center-out start positions
`(mid - len // 2, mid + len // 2)` coincide with `ltr`'s `(0, len - 1)` and
every comparison pair is the same, so the whole `process_char` output agrees
with `ltr`'s; but after each even-numbered appended character the right start
position `mid + len // 2 = len` lies one past the buffer end, the right
cursor invalidates on its first fetch, and the verdict is `false`. -/
theorem c2_centerout_amended (S : List PyChar) (hacc : ∀ c ∈ S, acceptedB c = true) :
    (processChars Direction.centerOut S).1.length = S.length ∧
    ∀ k, k < S.length →
      ((k + 1) % 2 = 1 →
        (processChars Direction.centerOut S).1.getD k defaultOutput =
          (processChars Direction.ltr S).1.getD k defaultOutput) ∧
      ((k + 1) % 2 = 0 →
        ((processChars Direction.centerOut S).1.getD k defaultOutput).1 = false) := by
  have hg1 : Good Direction.centerOut [] (StreamProcessor.init Direction.centerOut Option.none) :=
    ⟨rfl, rfl, rfl, rfl, rfl, fun x hx => absurd hx (List.not_mem_nil x)⟩
  have hg2 : Good Direction.ltr [] (StreamProcessor.init Direction.ltr Option.none) :=
    ⟨rfl, rfl, rfl, rfl, rfl, fun x hx => absurd hx (List.not_mem_nil x)⟩
  obtain ⟨o1, -, -, -⟩ := processVals_accepted S [] _ hg1 hacc
  obtain ⟨o2, -, -, -⟩ := processVals_accepted S [] _ hg2 hacc
  unfold processChars
  rw [o1, o2]
  refine ⟨acceptedOuts_length _ _ _, fun k hk => ⟨fun hodd => ?_, fun heven => ?_⟩⟩
  · rw [acceptedOuts_getD _ _ _ _ hk, acceptedOuts_getD _ _ _ _ hk]
    apply stepOut_eq_of_core
    apply validate_co_odd
    rw [List.nil_append, List.length_take]
    omega
  · rw [acceptedOuts_getD _ _ _ _ hk, List.nil_append]
    rw [stepOut_co_even (by rw [List.length_take]; omega)
      (by
        intro hnil
        have hlt : (S.take (k + 1)).length = k + 1 := by rw [List.length_take]; omega
        rw [hnil] at hlt
        simp at hlt)
      (fun c hc => hacc c (List.mem_of_mem_take hc))]

/-- Witness for the amended Claim C2 at `S = "aa"`: the first output (odd
window) agrees with `ltr`, the second output (even window) has a false
verdict. -/
theorem c2_centerout_amended_witness :
    (∀ c ∈ [chA, chA], acceptedB c = true) ∧
    ((0 + 1) % 2 = 1 →
      (processChars Direction.centerOut [chA, chA]).1.getD 0 defaultOutput =
        (processChars Direction.ltr [chA, chA]).1.getD 0 defaultOutput) ∧
    ((1 + 1) % 2 = 0 →
      ((processChars Direction.centerOut [chA, chA]).1.getD 1 defaultOutput).1 = false) :=
  ⟨by decide,
   ((c2_centerout_amended [chA, chA] (by decide)).2 0 (by decide)).1,
   ((c2_centerout_amended [chA, chA] (by decide)).2 1 (by decide)).2⟩

theorem stepOut_single (d : Direction) (c : PyChar) :
    stepOut d [c] = (true, Option.none, []) := by
  cases d <;> simp [stepOut, stepVerdict, stepChars, validate, palLoop, loopCond]

/-- Claim C4 amended: for every single character accepted by classification,
`process_char` on a fresh engine returns verdict `true` with an *empty*
recorded-characters list — under every topology the two cursors start at
index 0 of the one-character buffer, the loop guard fails at once, and
nothing is recorded. -/
theorem c4_single_char_amended (d : Direction) (c : PyChar) (hc : acceptedB c = true) :
    ((StreamProcessor.init d Option.none).process_char (.pystr [c]) false).1 =
      (true, Option.none, ([] : List CharTuple)) := by
  have hg : Good d [] (StreamProcessor.init d Option.none) :=
    ⟨rfl, rfl, rfl, rfl, rfl, fun x hx => absurd hx (List.not_mem_nil x)⟩
  rw [process_char_accepted hg hc]
  show stepOut d ([] ++ [c]) = (true, Option.none, [])
  rw [List.nil_append]
  exact stepOut_single d c

/-- Witness for the amended Claim C4 at the accepted character `'a'` under
the default topology. -/
theorem c4_single_char_witness :
    acceptedB chA = true ∧
    ((StreamProcessor.init Direction.rtl Option.none).process_char (.pystr [chA]) false).1 =
      (true, Option.none, ([] : List CharTuple)) :=
  ⟨by decide, c4_single_char_amended Direction.rtl chA (by decide)⟩

/-- Claim C7: `find_palindromes_in_paragraph` raises `InvalidInputError` for
a `None` or non-string paragraph, and returns the empty result (without
failing) for an empty or whitespace-only string. -/
theorem c7_scanner_input_validation (d : Direction) (vc : Option (List PyChar)) (ml : Nat) :
    (∀ v : PyVal, v = PyVal.pynull ∨ v = PyVal.nonstr →
      find_palindromes_in_paragraph v d vc ml =
        .error (.invalidInput "Paragraph must be a non-null string")) ∧
    (∀ s : List PyChar, is_empty s = true →
      find_palindromes_in_paragraph (.pystr s) d vc ml = .ok []) := by
  constructor
  · rintro v (rfl | rfl) <;> rfl
  · intro s hs
    unfold find_palindromes_in_paragraph
    dsimp only
    rw [if_pos hs]

/-- Witness for Claim C7: a `None` paragraph fails with `InvalidInput`, and
a single-space paragraph yields the empty result. -/
theorem c7_scanner_input_validation_witness :
    find_palindromes_in_paragraph PyVal.pynull Direction.ltr Option.none 1 =
      .error (.invalidInput "Paragraph must be a non-null string") ∧
    is_empty [chSpace] = true ∧
    find_palindromes_in_paragraph (.pystr [chSpace]) Direction.ltr Option.none 1 = .ok [] :=
  ⟨(c7_scanner_input_validation Direction.ltr Option.none 1).1 PyVal.pynull (Or.inl rfl),
   by decide,
   (c7_scanner_input_validation Direction.ltr Option.none 1).2 [chSpace] (by decide)⟩

/-- Claim C8: a Stopped engine, fed any sequence of further inputs with
`auto_reset` disabled, returns `(false, stored-error, [])` for every one of
them without consuming input or changing any engine state, and an explicit
`reset` returns it to the fresh state built by the constructor for its
direction and restricted alphabet. -/
theorem c8_stopped_latching (sp : StreamProcessor) (h : sp.stopped = true) (vs : List PyVal) :
    (processVals sp vs).1 = vs.map (fun _ => ((false, sp.error_msg, []) : Output)) ∧
    (processVals sp vs).2 = sp ∧
    sp.reset = StreamProcessor.init sp.direction sp.valid_chars := by
  have hstep : ∀ v, sp.process_char v false = ((false, sp.error_msg, []), sp) := by
    intro v
    unfold StreamProcessor.process_char
    simp [h]
  have main : ∀ ws : List PyVal,
      (processVals sp ws).1 = ws.map (fun _ => ((false, sp.error_msg, []) : Output)) ∧
      (processVals sp ws).2 = sp := by
    intro ws
    induction ws with
    | nil => exact ⟨rfl, rfl⟩
    | cons v rest ih =>
      unfold processVals
      rw [hstep v]
      dsimp only
      rw [List.map_cons]
      exact ⟨by rw [ih.1], ih.2⟩
  exact ⟨(main vs).1, (main vs).2, rfl⟩

/-- Witness for Claim C8: a stopped engine with a stored input error ignores
a valid character and a non-string input alike, and resets to the fresh
state. -/
theorem c8_stopped_latching_witness :
    (processVals stoppedEngine [PyVal.pystr [chA], PyVal.nonstr]).1 =
      [PyVal.pystr [chA], PyVal.nonstr].map
        (fun _ => ((false, stoppedEngine.error_msg, []) : Output)) ∧
    (processVals stoppedEngine [PyVal.pystr [chA], PyVal.nonstr]).2 = stoppedEngine ∧
    stoppedEngine.reset =
      StreamProcessor.init stoppedEngine.direction stoppedEngine.valid_chars :=
  c8_stopped_latching stoppedEngine rfl [PyVal.pystr [chA], PyVal.nonstr]

theorem processVals_cons (sp : StreamProcessor) (v : PyVal) (rest : List PyVal) :
    processVals sp (v :: rest) =
      ((sp.process_char v false).1 :: (processVals (sp.process_char v false).2 rest).1,
       (processVals (sp.process_char v false).2 rest).2) := rfl

theorem processVals_append (sp : StreamProcessor) (A B : List PyVal) :
    processVals sp (A ++ B) =
      ((processVals sp A).1 ++ (processVals (processVals sp A).2 B).1,
       (processVals (processVals sp A).2 B).2) := by
  induction A generalizing sp with
  | nil => rfl
  | cons v rest ih =>
    rw [List.cons_append, processVals_cons, ih, processVals_cons]
    dsimp only
    rw [List.cons_append]

theorem process_char_mark {sp : StreamProcessor} {m : PyChar} (hst : sp.stopped = false)
    (hs : m.isSpace = false) (hm : m.isMn = true) :
    sp.process_char (.pystr [m]) false =
      ((false, Option.none, []),
       { sp with skipped_diacritics := sp.skipped_diacritics + 1 }) := by
  unfold StreamProcessor.process_char
  simp [hst, hs, hm]

theorem getLast?_append_ne {α : Type} (l l' : List α) (h : l' ≠ []) :
    (l ++ l').getLast? = l'.getLast? := by
  rw [List.getLast?_append]
  cases hl : l'.getLast? with
  | none => exact absurd (List.getLast?_eq_none_iff.mp hl) h
  | some x => rfl

theorem acceptedOuts_ne_nil {d : Direction} {B S : List PyChar} (h : S ≠ []) :
    acceptedOuts d B S ≠ [] := by
  intro hn
  have hlen := acceptedOuts_length d S B
  rw [hn] at hlen
  exact h (List.length_eq_zero.mp hlen.symm)

/-- Claim C9: inserting a combining mark (non-spacing mark, not whitespace)
at any position of an accepted character sequence leaves the final
is-palindrome verdict unchanged and increments the skipped-diacritics
counter by exactly one: the mark is counted and dropped before the buffer is
touched, and the skip counters never influence validation. -/
theorem c9_diacritic_transparency (d : Direction) (S1 S2 : List PyChar) (m : PyChar)
    (hacc : ∀ c ∈ S1 ++ S2, acceptedB c = true) (hm : m.isMn = true) (hs : m.isSpace = false)
    (hne : S2 ≠ []) :
    finalVerdict d (S1 ++ m :: S2) = finalVerdict d (S1 ++ S2) ∧
    (processChars d (S1 ++ m :: S2)).2.skipped_diacritics =
      (processChars d (S1 ++ S2)).2.skipped_diacritics + 1 := by
  have hS1 : ∀ c ∈ S1, acceptedB c = true := fun c hc => hacc c (List.mem_append_left _ hc)
  have hS2 : ∀ c ∈ S2, acceptedB c = true := fun c hc => hacc c (List.mem_append_right _ hc)
  have hg0 : Good d [] (StreamProcessor.init d Option.none) :=
    ⟨rfl, rfl, rfl, rfl, rfl, fun x hx => absurd hx (List.not_mem_nil x)⟩
  obtain ⟨b1, bg1, bd1, bs1⟩ := processVals_accepted S1 [] _ hg0 hS1
  rw [List.nil_append] at bg1
  set sp1 := (processVals (StreamProcessor.init d Option.none)
    (S1.map (fun c => PyVal.pystr [c]))).2 with hsp1
  have hstop1 : sp1.stopped = false := bg1.2.2.2.1
  have hmark := process_char_mark (m := m) hstop1 hs hm
  have hg1' : Good d S1 { sp1 with skipped_diacritics := sp1.skipped_diacritics + 1 } :=
    ⟨bg1.1, bg1.2.1, bg1.2.2.1, bg1.2.2.2.1, bg1.2.2.2.2.1, bg1.2.2.2.2.2⟩
  obtain ⟨f2, fg2, fd2, fs2⟩ := processVals_accepted S2 S1 _ hg1' hS2
  obtain ⟨b2, bg2, bd2, bs2⟩ := processVals_accepted S2 S1 _ bg1 hS2
  have hfull : processChars d (S1 ++ m :: S2) =
      ((processVals (StreamProcessor.init d Option.none) (S1.map (fun c => PyVal.pystr [c]))).1 ++
        ((false, Option.none, []) ::
          (processVals { sp1 with skipped_diacritics := sp1.skipped_diacritics + 1 }
            (S2.map (fun c => PyVal.pystr [c]))).1),
       (processVals { sp1 with skipped_diacritics := sp1.skipped_diacritics + 1 }
         (S2.map (fun c => PyVal.pystr [c]))).2) := by
    unfold processChars
    rw [List.map_append, List.map_cons, processVals_append, ← hsp1, processVals_cons, hmark]
  have hbase : processChars d (S1 ++ S2) =
      ((processVals (StreamProcessor.init d Option.none) (S1.map (fun c => PyVal.pystr [c]))).1 ++
        (processVals sp1 (S2.map (fun c => PyVal.pystr [c]))).1,
       (processVals sp1 (S2.map (fun c => PyVal.pystr [c]))).2) := by
    unfold processChars
    rw [List.map_append, processVals_append, ← hsp1]
  constructor
  · unfold finalVerdict
    rw [hfull, hbase]
    dsimp only
    rw [f2, b2]
    rw [getLast?_append_ne _ _ (by intro h; cases h)]
    rw [getLast?_append_ne _ _ (acceptedOuts_ne_nil hne)]
    rw [show ((false, Option.none, []) : Output) :: acceptedOuts d S1 S2 =
        [((false, Option.none, []) : Output)] ++ acceptedOuts d S1 S2 from rfl]
    rw [getLast?_append_ne _ _ (acceptedOuts_ne_nil hne)]
  · rw [hfull, hbase]
    dsimp only
    rw [fd2, bd2]

/-- Witness for Claim C9: inserting U+0301 between the two letters of `"aa"`
keeps the final verdict and bumps the diacritic counter by one. -/
theorem c9_diacritic_transparency_witness :
    (∀ c ∈ [chA] ++ [chA], acceptedB c = true) ∧ chMark.isMn = true ∧
    chMark.isSpace = false ∧
    finalVerdict Direction.ltr ([chA] ++ chMark :: [chA]) =
      finalVerdict Direction.ltr ([chA] ++ [chA]) ∧
    (processChars Direction.ltr ([chA] ++ chMark :: [chA])).2.skipped_diacritics =
      (processChars Direction.ltr ([chA] ++ [chA])).2.skipped_diacritics + 1 :=
  ⟨by decide, by decide, by decide,
   (c9_diacritic_transparency Direction.ltr [chA] [chA] chMark (by decide) (by decide)
     (by decide) (by intro h; cases h)).1,
   (c9_diacritic_transparency Direction.ltr [chA] [chA] chMark (by decide) (by decide)
     (by decide) (by intro h; cases h)).2⟩

theorem palLoop_ltr_completed_length :
    ∀ (fuel : Nat) (buffer : List PyChar) (t : Nat) (cs : List CharTuple)
      (l1 : Left) (r1 : Right),
      (∀ c ∈ buffer, acceptedB c = true) →
      2 * t ≤ buffer.length →
      buffer.length / 2 - t + 1 ≤ fuel →
      palLoop fuel Direction.ltr
        { buffer := buffer, pos := (t : Int), direction := Direction.ltr,
          valid_chars := Option.none, valid := true, chars := cs }
        { buffer := buffer, pos := (buffer.length : Int) - 1 - (t : Int),
          direction := Direction.ltr, valid_chars := Option.none, valid := true } =
        .completed l1 r1 →
      (l1.valid && r1.valid) = true →
      l1.chars.length = cs.length + (buffer.length / 2 - t)
  | 0, buffer, t, cs, l1, r1, hacc, ht, hfuel, heq, hval => absurd hfuel (by omega)
  | Nat.succ fuel, buffer, t, cs, l1, r1, hacc, ht, hfuel, heq, hval => by
    unfold palLoop at heq
    dsimp only at heq
    by_cases hlt : (t : Int) < (buffer.length : Int) - 1 - (t : Int)
    · rw [if_pos (show (true : Bool) = true ∧ (true : Bool) = true ∧
          loopCond Direction.ltr (t : Int) ((buffer.length : Int) - 1 - (t : Int)) from
        ⟨rfl, rfl, (loopCond_forward (Or.inl rfl)).mpr hlt⟩)] at heq
      rw [left_get_hash_acc rfl rfl (by dsimp only; omega) (by dsimp only; omega)
        (hacc _ (getD_mem _ _ _ (by dsimp only; omega)))] at heq
      dsimp only at heq
      rw [right_get_hash_acc rfl rfl (by dsimp only; omega) (by dsimp only; omega)
        (hacc _ (getD_mem _ _ _ (by dsimp only; omega)))] at heq
      dsimp only at heq
      by_cases hmis : some (hash_char (buffer.getD (t : Int).toNat defaultChar)) = Option.none ∨
          some (hash_char (buffer.getD ((buffer.length : Int) - 1 - (t : Int)).toNat
            defaultChar)) = Option.none ∨
          some (hash_char (buffer.getD (t : Int).toNat defaultChar)) ≠
            some (hash_char (buffer.getD ((buffer.length : Int) - 1 - (t : Int)).toNat
              defaultChar))
      · rw [if_pos hmis] at heq
        cases heq
      · rw [if_neg hmis] at heq
        have hadvl : (Left.advance
            { buffer := buffer, pos := (t : Int), direction := Direction.ltr,
              valid_chars := Option.none, valid := true,
              chars := cs ++ [recTuple (buffer.getD (t : Int).toNat defaultChar)] }) =
            { buffer := buffer, pos := ((t + 1 : Nat) : Int), direction := Direction.ltr,
              valid_chars := Option.none, valid := true,
              chars := cs ++ [recTuple (buffer.getD (t : Int).toNat defaultChar)] } := by
          unfold Left.advance
          dsimp only
          rw [if_pos (Or.inl rfl)]
          rw [if_neg (by omega)]
          congr 1
        have hadvr : (Right.advance
            { buffer := buffer, pos := (buffer.length : Int) - 1 - (t : Int),
              direction := Direction.ltr, valid_chars := Option.none, valid := true }) =
            { buffer := buffer, pos := (buffer.length : Int) - 1 - ((t + 1 : Nat) : Int),
              direction := Direction.ltr, valid_chars := Option.none, valid := true } := by
          unfold Right.advance
          dsimp only
          rw [ite_self]
          rw [if_neg (by omega)]
          congr 1
          all_goals (push_cast; try ring)
        rw [hadvl, hadvr] at heq
        have ih := palLoop_ltr_completed_length fuel buffer (t + 1)
          (cs ++ [recTuple (buffer.getD (t : Int).toNat defaultChar)]) l1 r1 hacc
          (by omega) (by omega) heq hval
        simp only [List.length_append, List.length_singleton] at ih
        omega
    · rw [if_neg (fun hcond : (true : Bool) = true ∧ (true : Bool) = true ∧
          loopCond Direction.ltr (t : Int) ((buffer.length : Int) - 1 - (t : Int)) =>
        absurd ((loopCond_forward (Or.inl rfl)).mp hcond.2.2) hlt)] at heq
      injection heq with h1 h2
      rw [← h1]
      dsimp only
      omega

theorem acceptedOuts_getLast (d : Direction) :
    ∀ (S B : List PyChar), S ≠ [] →
      (acceptedOuts d B S).getLast? = some (stepOut d (B ++ S))
  | [], _, h => absurd rfl h
  | [c], B, _ => by
    unfold acceptedOuts
    rfl
  | c :: c2 :: rest, B, _ => by
    rw [show acceptedOuts d B (c :: c2 :: rest) =
      [stepOut d (B ++ [c])] ++ acceptedOuts d (B ++ [c]) (c2 :: rest) from rfl]
    rw [getLast?_append_ne _ _ (acceptedOuts_ne_nil (by intro h; cases h))]
    rw [acceptedOuts_getLast d (c2 :: rest) (B ++ [c]) (by intro h; cases h)]
    congr 2
    simp

theorem finalOutput_accepted (d : Direction) (S : List PyChar)
    (hacc : ∀ c ∈ S, acceptedB c = true) (hne : S ≠ []) :
    (processChars d S).1.getLast? = some (stepOut d S) := by
  have hg : Good d [] (StreamProcessor.init d Option.none) :=
    ⟨rfl, rfl, rfl, rfl, rfl, fun x hx => absurd hx (List.not_mem_nil x)⟩
  obtain ⟨o, -, -, -⟩ := processVals_accepted S [] _ hg hacc
  unfold processChars
  rw [o, acceptedOuts_getLast d S [] hne, List.nil_append]

theorem stepChars_ltr_length {S : List PyChar} (hacc : ∀ c ∈ S, acceptedB c = true)
    (hv : stepVerdict Direction.ltr S = true) :
    (stepChars Direction.ltr S).length = S.length / 2 := by
  unfold stepVerdict at hv
  unfold stepChars
  cases hval : validate Direction.ltr S with
  | raised e => rw [hval] at hv; cases hv
  | mismatch a b => rw [hval] at hv; cases hv
  | completed l1 r1 =>
    rw [hval] at hv
    dsimp only at hv
    dsimp only
    rw [if_pos hv]
    have heq : palLoop (S.length + 1) Direction.ltr
        { buffer := S, pos := ((0 : Nat) : Int), direction := Direction.ltr,
          valid_chars := Option.none, valid := true, chars := [] }
        { buffer := S, pos := (S.length : Int) - 1 - ((0 : Nat) : Int),
          direction := Direction.ltr, valid_chars := Option.none, valid := true } =
        .completed l1 r1 := by
      unfold validate at hval
      dsimp only at hval
      rw [show (S.length : Int) - 1 - ((0 : Nat) : Int) = (S.length : Int) - 1 by omega]
      rw [show ((0 : Nat) : Int) = (0 : Int) by omega]
      exact hval
    have := palLoop_ltr_completed_length (S.length + 1) S 0 [] l1 r1 hacc
      (by omega) (by omega) heq hv
    simpa using this

theorem countCleanTrue_ok {S : List PyChar} (hacc : ∀ c ∈ S, acceptedB c = true) :
    ∃ k, countCleanTrue S = .ok k := by
  induction S with
  | nil => exact ⟨0, rfl⟩
  | cons c rest ih =>
    obtain ⟨k, hk⟩ := ih (fun x hx => hacc x (List.mem_cons_of_mem c hx))
    have hc := clean_of_accepted (hacc c (List.mem_cons_self c rest))
    refine ⟨k + 1, ?_⟩
    unfold countCleanTrue
    rw [hc, hk]
    simp

theorem String_Output_true {S : List PyChar} {cs : List CharTuple}
    (hemp : is_empty S = false) (hhv : has_valid_chars S Option.none = .ok true)
    (hcount : ∃ k, countCleanTrue S = .ok k) (hcsne : cs ≠ []) :
    ∃ ds, String_Output (.pystr S) true Option.none Direction.ltr cs false 0 0 =
        .ok (.rendered ds) ∧
      ds.length = (if cs.length = 1 then 1 else 2 * cs.length - 1) := by
  obtain ⟨k, hcount⟩ := hcount
  dsimp only [String_Output]
  rw [hemp]
  rw [if_neg (by simp)]
  rw [hhv]
  dsimp only
  rw [if_pos (show (true : Bool) = true ∧ cs ≠ [] ∧ (true : Bool) = true from
    ⟨rfl, hcsne, rfl⟩)]
  rw [if_pos (show Direction.ltr = Direction.ltr ∨ Direction.ltr = Direction.centerOut from
    Or.inl rfl)]
  rw [hcount]
  refine ⟨_, rfl, ?_⟩
  by_cases h1 : cs.length = 1
  · rw [if_pos h1, if_pos h1, List.length_map, h1]
  · rw [if_neg h1, if_neg h1, List.length_map, List.length_take, List.length_append,
      List.length_reverse]
    omega

/-- Claim C5 amended: the renderer does not reconstruct the full validated
window.  For a true verdict on an `n`-character window (`n ≥ 2`) the
recording cursor has stored only the first `⌊n/2⌋` characters; the renderer
mirrors that half and unconditionally truncates the result to
`2⌊n/2⌋ − 1` entries, so the displayed word always has `2⌊n/2⌋ − 1`
characters — never `n` — and therefore never equals the original
accepted-character content of the window. -/
theorem c5_render_amended (S : List PyChar) (hacc : ∀ c ∈ S, acceptedB c = true)
    (hlen : 2 ≤ S.length) (cs : List CharTuple)
    (hout : (processChars Direction.ltr S).1.getLast? = some (true, Option.none, cs)) :
    ∃ ds, String_Output (.pystr S) true Option.none Direction.ltr cs false 0 0 =
        .ok (.rendered ds) ∧
      ds.length = 2 * (S.length / 2) - 1 ∧ ds ≠ S.map (fun c => c.code) := by
  have hne : S ≠ [] := by
    intro h
    rw [h] at hlen
    simp at hlen
  have hfin := finalOutput_accepted Direction.ltr S hacc hne
  rw [hout] at hfin
  injection hfin with hfin
  unfold stepOut at hfin
  simp only [Prod.mk.injEq] at hfin
  obtain ⟨hv, -, hcs⟩ := hfin
  have hm : cs.length = S.length / 2 := by
    rw [hcs]
    exact stepChars_ltr_length hacc hv.symm
  have hcsne : cs ≠ [] := by
    intro h
    rw [h] at hm
    simp at hm
    omega
  have hemp : is_empty S = false := by
    obtain ⟨s0, rest, rfl⟩ := List.exists_cons_of_ne_nil hne
    have hs0s : s0.isSpace = false :=
      (acceptedB_spec (hacc s0 (List.mem_cons_self _ _))).1
    unfold is_empty pyIsspace
    simp [hs0s]
  have hhv : has_valid_chars S Option.none = .ok true := by
    obtain ⟨s0, rest, rfl⟩ := List.exists_cons_of_ne_nil hne
    have hclean0 : clean s0 Option.none = .ok true :=
      clean_of_accepted (hacc s0 (List.mem_cons_self _ _))
    unfold has_valid_chars
    rw [hclean0]
  obtain ⟨ds, hso, hdslen⟩ := String_Output_true hemp hhv (countCleanTrue_ok hacc) hcsne
  refine ⟨ds, hso, ?_, ?_⟩
  · rw [hdslen]
    by_cases h1 : cs.length = 1
    · rw [if_pos h1]
      omega
    · rw [if_neg h1]
      omega
  · intro hds
    have hlends := congrArg List.length hds
    rw [hdslen, List.length_map] at hlends
    by_cases h1 : cs.length = 1
    · rw [if_pos h1] at hlends
      omega
    · rw [if_neg h1] at hlends
      omega

/-- Witness for the amended Claim C5 at `S = "aba"`: the final true verdict
records one tuple, and the renderer emits the single code point 97 — length
`2⌊3/2⌋ − 1 = 1`, not the original three characters. -/
theorem c5_render_amended_witness :
    (∀ c ∈ [chA, chB, chA], acceptedB c = true) ∧
    (processChars Direction.ltr [chA, chB, chA]).1.getLast? =
      some (true, Option.none, [(chA, false, false, true)]) ∧
    ∃ ds, String_Output (.pystr [chA, chB, chA]) true Option.none Direction.ltr
        [(chA, false, false, true)] false 0 0 = .ok (.rendered ds) ∧
      ds.length = 2 * ([chA, chB, chA].length / 2) - 1 ∧
      ds ≠ [chA, chB, chA].map (fun c => c.code) :=
  ⟨by decide, by rfl,
   c5_render_amended [chA, chB, chA] (by decide) (by decide) [(chA, false, false, true)]
     (by rfl)⟩

theorem subPairs_mem {n i j : Nat} (h : (i, j) ∈ subPairs n) : i ≤ j ∧ j < n := by
  unfold subPairs at h
  rw [List.mem_flatMap] at h
  obtain ⟨a, ha, hb⟩ := h
  rw [List.mem_map] at hb
  obtain ⟨jj, hjj, hpair⟩ := hb
  have ha' := List.mem_range.mp ha
  have hjj' := List.mem_range'_1.mp hjj
  injection hpair with h1 h2
  subst h1
  subst h2
  omega

theorem extractRuns_spec (vc : Option (List PyChar)) (s : List PyChar) :
    ∀ (rest : List PyChar) (i start : Nat) (cur : List PyChar),
      (∀ n, rest.get? n = s.get? (i + n)) →
      (cur ≠ [] → start + cur.length = i ∧
        ∀ k, start ≤ k → k < i → ∃ c, s.get? k = some c ∧ clean c vc = .ok true) →
      ∀ run ∈ extractRuns vc rest i start cur,
        run.2.1 + 1 = run.1 + run.2.2.length ∧
        ∀ k, run.1 ≤ k → k ≤ run.2.1 → ∃ c, s.get? k = some c ∧ clean c vc = .ok true
  | [], i, start, cur, hs, hcur, run, hrun => by
    unfold extractRuns at hrun
    by_cases hc : cur.isEmpty
    · rw [if_pos hc] at hrun
      cases hrun
    · rw [if_neg hc] at hrun
      rcases List.mem_singleton.mp hrun with rfl
      obtain ⟨h1, h2⟩ := hcur (by
        intro h
        rw [h] at hc
        exact hc rfl)
      have hlp : 0 < cur.length := List.length_pos.mpr (by
        intro h
        rw [h] at hc
        exact hc rfl)
      refine ⟨by dsimp only; omega, fun k hk1 hk2 => h2 k hk1 (by dsimp only at hk1 hk2; omega)⟩
  | c :: rest, i, start, cur, hs, hcur, run, hrun => by
    unfold extractRuns at hrun
    have hs0 : s.get? i = some c := (hs 0).symm
    have hsrest : ∀ n, rest.get? n = s.get? (i + 1 + n) := by
      intro n
      rw [show i + 1 + n = i + (n + 1) by omega]
      exact hs (n + 1)
    cases hcl : clean c vc with
    | ok b =>
      cases b with
      | true =>
        rw [hcl] at hrun
        dsimp only at hrun
        by_cases hc : cur.isEmpty
        · rw [if_pos hc] at hrun
          have hcur' : cur = [] := by
            cases cur
            · rfl
            · cases hc
          subst hcur'
          exact extractRuns_spec vc s rest (i + 1) i ([] ++ [c]) hsrest
            (fun _ => ⟨by simp, fun k hk1 hk2 => by
              rw [show k = i by omega]
              exact ⟨c, hs0, hcl⟩⟩) run hrun
        · rw [if_neg hc] at hrun
          obtain ⟨h1, h2⟩ := hcur (by
            intro h
            rw [h] at hc
            exact hc rfl)
          exact extractRuns_spec vc s rest (i + 1) start (cur ++ [c]) hsrest
            (fun _ => ⟨by rw [List.length_append, List.length_singleton]; omega,
              fun k hk1 hk2 => by
                by_cases hki : k < i
                · exact h2 k hk1 hki
                · rw [show k = i by omega]
                  exact ⟨c, hs0, hcl⟩⟩) run hrun
      | false =>
        rw [hcl] at hrun
        dsimp only at hrun
        by_cases hc : cur.isEmpty
        · rw [if_pos hc] at hrun
          exact extractRuns_spec vc s rest (i + 1) start [] hsrest
            (fun h => absurd rfl h) run hrun
        · rw [if_neg hc] at hrun
          obtain ⟨h1, h2⟩ := hcur (by
            intro h
            rw [h] at hc
            exact hc rfl)
          rcases List.mem_cons.mp hrun with rfl | hrun'
          · have hlp : 0 < cur.length := List.length_pos.mpr (by
              intro h
              rw [h] at hc
              exact hc rfl)
            refine ⟨by dsimp only; omega,
              fun k hk1 hk2 => h2 k hk1 (by dsimp only at hk1 hk2; omega)⟩
          · exact extractRuns_spec vc s rest (i + 1) start [] hsrest
              (fun h => absurd rfl h) run hrun'
    | error e =>
      rw [hcl] at hrun
      dsimp only at hrun
      by_cases hc : cur.isEmpty
      · rw [if_pos hc] at hrun
        exact extractRuns_spec vc s rest (i + 1) start [] hsrest
          (fun h => absurd rfl h) run hrun
      · rw [if_neg hc] at hrun
        obtain ⟨h1, h2⟩ := hcur (by
          intro h
          rw [h] at hc
          exact hc rfl)
        rcases List.mem_cons.mp hrun with rfl | hrun'
        · have hlp : 0 < cur.length := List.length_pos.mpr (by
            intro h
            rw [h] at hc
            exact hc rfl)
          refine ⟨by dsimp only; omega,
            fun k hk1 hk2 => h2 k hk1 (by dsimp only at hk1 hk2; omega)⟩
        · exact extractRuns_spec vc s rest (i + 1) start [] hsrest
            (fun h => absurd rfl h) run hrun'

theorem collectPals_mem (d : Direction) (vc : Option (List PyChar)) (ml start : Nat)
    (seq : List PyChar) :
    ∀ (pairs : List (Nat × Nat)) (res : List PalRes),
      collectPals d vc ml start seq pairs = .ok res →
      ∀ p ∈ res, ∃ i j, (i, j) ∈ pairs ∧ p.start_pos = start + i ∧ p.end_pos = start + j
  | [], res, heq, p, hp => by
    injection heq with h
    rw [← h] at hp
    cases hp
  | (i, j) :: rest, res, heq, p, hp => by
    unfold collectPals at heq
    dsimp only at heq
    by_cases hml : ((seq.drop i).take (j + 1 - i)).length < ml
    · rw [if_pos hml] at heq
      obtain ⟨a, b, hmem, h1, h2⟩ := collectPals_mem d vc ml start seq rest res heq p hp
      exact ⟨a, b, List.mem_cons_of_mem _ hmem, h1, h2⟩
    · rw [if_neg hml] at heq
      by_cases hres :
          (driveProcessor (StreamProcessor.init d vc) [] ((seq.drop i).take (j + 1 - i))).1 = true
      · rw [if_pos hres] at heq
        split at heq
        · cases heq
        · rename_i output hso
          split at heq
          · cases heq
          · rename_i rest_results hrest
            injection heq with h
            rw [← h] at hp
            rcases List.mem_cons.mp hp with rfl | hp'
            · exact ⟨i, j, List.mem_cons_self _ _, rfl, rfl⟩
            · obtain ⟨a, b, hmem, h1, h2⟩ :=
                collectPals_mem d vc ml start seq rest rest_results hrest p hp'
              exact ⟨a, b, List.mem_cons_of_mem _ hmem, h1, h2⟩
      · rw [if_neg hres] at heq
        obtain ⟨a, b, hmem, h1, h2⟩ := collectPals_mem d vc ml start seq rest res heq p hp
        exact ⟨a, b, List.mem_cons_of_mem _ hmem, h1, h2⟩

theorem collectRuns_mem (d : Direction) (vc : Option (List PyChar)) (ml : Nat) :
    ∀ (runs : List (Nat × Nat × List PyChar)) (res : List PalRes),
      collectRuns d vc ml runs = .ok res →
      ∀ p ∈ res, ∃ start e seq ps, (start, e, seq) ∈ runs ∧
        collectPals d vc ml start seq (subPairs seq.length) = .ok ps ∧ p ∈ ps
  | [], res, heq, p, hp => by
    injection heq with h
    rw [← h] at hp
    cases hp
  | (start, e, seq) :: rest, res, heq, p, hp => by
    unfold collectRuns at heq
    split at heq
    · cases heq
    · rename_i ps hps
      split at heq
      · cases heq
      · rename_i qs hqs
        injection heq with h
        rw [← h] at hp
        rcases List.mem_append.mp hp with hp1 | hp2
        · exact ⟨start, e, seq, ps, List.mem_cons_self _ _, hps, hp1⟩
        · obtain ⟨a, b, sq, ps', hm, hcp, hpp⟩ := collectRuns_mem d vc ml rest qs hqs p hp2
          exact ⟨a, b, sq, ps', List.mem_cons_of_mem _ hm, hcp, hpp⟩

/-- Claim C10: in the batch scanner a combining-mark code point ends the
current run exactly like a rejected symbol (`clean` returns false for
category `Mn`), so every character position covered by a reported palindrome
passed strict classification and in particular is not a non-spacing mark —
no reported palindrome ever spans a combining mark, and the streaming
engine's silent diacritic skip does not apply during run partitioning. -/
theorem c10_marks_break_runs (s : List PyChar) (d : Direction) (vc : Option (List PyChar))
    (ml : Nat) (res : List PalRes)
    (heq : find_palindromes_in_paragraph (.pystr s) d vc ml = .ok res) :
    ∀ p ∈ res, ∀ k c, p.start_pos ≤ k → k ≤ p.end_pos → s.get? k = some c →
      c.isMn = false := by
  intro p hp k c hk1 hk2 hkc
  unfold find_palindromes_in_paragraph at heq
  dsimp only at heq
  by_cases hemp : is_empty s = true
  · rw [if_pos hemp] at heq
    injection heq with h
    rw [← h] at hp
    cases hp
  · rw [if_neg hemp] at heq
    obtain ⟨start, e, seq, ps, hrun, hcp, hpp⟩ := collectRuns_mem d vc ml _ res heq p hp
    obtain ⟨i, j, hij, hst, hen⟩ := collectPals_mem d vc ml start seq _ ps hcp p hpp
    obtain ⟨hij2, hjn⟩ := subPairs_mem hij
    have hinv := extractRuns_spec vc s s 0 0 [] (fun n => by rw [Nat.zero_add])
      (fun h => absurd rfl h) (start, e, seq) hrun
    obtain ⟨hlen, hclean⟩ := hinv
    dsimp only at hlen hclean
    obtain ⟨c', hc', hcl⟩ := hclean k (by omega) (by omega)
    rw [hkc] at hc'
    injection hc' with hcc
    rw [hcc]
    exact clean_true_not_mn hcl

/-- Witness for Claim C10: scanning `"aa" + U+0301` finds the palindrome
`"aa"` at positions 0-1, and the character at position 0 is not a combining
mark. -/
theorem c10_marks_break_runs_witness : chA.isMn = false :=
  c10_marks_break_runs [chA, chA, chMark] Direction.ltr Option.none 2
    [{ palindrome := [chA, chA], start_pos := 0, end_pos := 1,
       output := DisplayWord.rendered [97] }] (by rfl)
    { palindrome := [chA, chA], start_pos := 0, end_pos := 1,
      output := DisplayWord.rendered [97] } (by decide) 0 chA (by decide) (by decide) (by rfl)
